import Mathlib

/-!
# xuuid: identifier values, polymorphic identifiers and the base-62 encoder

A shallow embedding of `core.go` (package `xuuid`).

* A Go `[]byte` and a Go `string` are both sequences of bytes: `List Byte`.
* A Go method with a pointer receiver that returns `error` is a function from the
  receiver's old value and the arguments to the pair (new receiver, error), the error
  being `none` for Go's `nil`.
* A Go function returning `(value, error)` whose callers drop the value on error is a
  function into `Except Error`.
* `*big.Int` is `Int`.

The package imports `github.com/google/uuid`; the functions of that package which
`core.go` calls are embedded in the namespace `uuid`, following that package's
implementation (`uuid.go`, `marshal.go`, `util.go`).
-/

namespace Xuuid

/-- One byte. -/
abbrev Byte := Fin 256

/-- The bytes of an ASCII string literal. -/
def ascii (s : String) : List Byte := s.data.map (fun c => Fin.ofNat c.toNat)

/-- The errors the identifier primitives report, and the error of `encoding/json`. -/
inductive Error where
  | invalidLength (n : Nat)
  | invalidUrn
  | invalidFormat
  | invalidBytes (n : Nat)
  | jsonSyntax
  deriving DecidableEq, Repr

/-- The values of the interface type `driver.Value` which the package produces: a
`[]byte` or a `string`. -/
inductive DriverValue where
  | bytes (b : List Byte)
  | string (s : List Byte)
  deriving DecidableEq, Repr

deriving instance DecidableEq for Except

/-! ## The imported package `github.com/google/uuid` -/

namespace uuid

/-- The type `uuid.UUID`, `[16]byte`. -/
abbrev UUID := {l : List Byte // l.length = 16}

/-- The all-zero array `uuid.Nil`, also the zero value of `UUID`. -/
def Nil : UUID := ⟨List.replicate 16 0, by decide⟩

/-- The statement `copy(uuid[:], data)` on a zero-valued `uuid`: the first 16 bytes of
`data`, the rest (if `data` is shorter) staying zero. -/
def copyInto (data : List Byte) : UUID :=
  ⟨(data ++ List.replicate 16 0).take 16, by simp⟩

/-- The table `xvalues` of `util.go`: the value of a hexadecimal digit, 255 for any
other byte. -/
def xvalues (x : Byte) : Byte :=
  if 48 ≤ x.val ∧ x.val ≤ 57 then Fin.ofNat (x.val - 48)
  else if 65 ≤ x.val ∧ x.val ≤ 70 then Fin.ofNat (x.val - 55)
  else if 97 ≤ x.val ∧ x.val ≤ 102 then Fin.ofNat (x.val - 87)
  else 255

/-- The function `xtob` of `util.go`: two hexadecimal digits to a byte,
`(b1 << 4) | b2, b1 != 255 && b2 != 255`. -/
def xtob (x1 x2 : Byte) : Byte × Bool :=
  let b1 := xvalues x1
  let b2 := xvalues x2
  (Fin.ofNat (((b1.val <<< 4) % 256) ||| b2.val), b1 != 255 && b2 != 255)

/-- The loop `uuid[i], ok = xtob(s[x], s[x+1])` over the offsets `x`, stopping with
"invalid UUID format" at the first pair that is not hexadecimal. -/
def xtobEach (s : List Byte) : List Nat → Except Error (List Byte)
  | [] => .ok []
  | x :: xs =>
    match xtob (s.getD x 0) (s.getD (x + 1) 0) with
    | (v, true) =>
      match xtobEach s xs with
      | .ok vs => .ok (v :: vs)
      | .error e => .error e
    | (_, false) => .error .invalidFormat

/-- The offsets of the 16 digit pairs in `xxxxxxxx-xxxx-xxxx-xxxx-xxxxxxxxxxxx`. -/
def hyphenatedOffsets : List Nat :=
  [0, 2, 4, 6, 9, 11, 14, 16, 19, 21, 24, 26, 28, 30, 32, 34]

/-- The offsets of the 16 digit pairs in `xxxxxxxxxxxxxxxxxxxxxxxxxxxxxxxx`. -/
def plainOffsets : List Nat :=
  [0, 2, 4, 6, 8, 10, 12, 14, 16, 18, 20, 22, 24, 26, 28, 30]

/-- The tail of `Parse`, reached with `s` at least 36 bytes long: the four hyphens are
checked, then the 16 digit pairs are read. -/
def parseHyphenated (s : List Byte) : Except Error UUID :=
  if s.getD 8 0 ≠ 45 ∨ s.getD 13 0 ≠ 45 ∨ s.getD 18 0 ≠ 45 ∨ s.getD 23 0 ≠ 45 then
    .error .invalidFormat
  else
    match xtobEach s hyphenatedOffsets with
    | .ok vs => .ok (copyInto vs)
    | .error e => .error e

/-- ASCII lower-casing of one byte. -/
def lowerByte (b : Byte) : Byte :=
  if 65 ≤ b.val ∧ b.val ≤ 90 then Fin.ofNat (b.val + 32) else b

/-- The call `strings.EqualFold(s[:9], "urn:uuid:")`: the second argument is ASCII and
none of its letters has a non-ASCII case variant, so the comparison is that of the
ASCII lower-cased bytes. -/
def equalFold (a b : List Byte) : Bool :=
  a.map lowerByte == b.map lowerByte

/-- The function `uuid.Parse`: the switch on `len(s)` accepts the 36-byte hyphenated
form, the 45-byte form with the prefix `urn:uuid:`, the 38-byte form of which only the
middle 36 bytes are examined, and the 32-byte form without hyphens. -/
def Parse (s : List Byte) : Except Error UUID :=
  if s.length = 36 then parseHyphenated s
  else if s.length = 36 + 9 then
    if equalFold (s.take 9) (ascii "urn:uuid:") then parseHyphenated (s.drop 9)
    else .error .invalidUrn
  else if s.length = 36 + 2 then parseHyphenated (s.drop 1)
  else if s.length = 32 then
    match xtobEach s plainOffsets with
    | .ok vs => .ok (copyInto vs)
    | .error e => .error e
  else .error (.invalidLength s.length)

/-- The method `(*UUID).UnmarshalBinary` on a zero-valued receiver, which is how
`FromBytes` calls it: an error unless `data` has 16 bytes, else a copy of `data`. -/
def UnmarshalBinary (data : List Byte) : Except Error UUID :=
  if data.length ≠ 16 then .error (.invalidBytes data.length)
  else .ok (copyInto data)

/-- The function `uuid.FromBytes`. -/
def FromBytes (b : List Byte) : Except Error UUID :=
  UnmarshalBinary b

/-- The method `UUID.MarshalBinary`: `return uuid[:], nil`. -/
def MarshalBinary (u : UUID) : List Byte × Option Error :=
  (u.val, none)

/-- The table `hextable` of `encoding/hex`. -/
def hextable : List Byte := ascii "0123456789abcdef"

/-- The function `hex.Encode`: for each byte `v` the two digits `hextable[v>>4]` and
`hextable[v&0x0f]`. -/
def hexEncode : List Byte → List Byte
  | [] => []
  | v :: vs => hextable.getD (v.val >>> 4) 0 :: hextable.getD (v.val &&& 15) 0 :: hexEncode vs

/-- The function `encodeHex`: the five groups of digits with a hyphen at the offsets 8,
13, 18 and 23 of the 36-byte buffer. -/
def encodeHex (u : UUID) : List Byte :=
  hexEncode (u.val.take 4) ++ 45 :: hexEncode ((u.val.drop 4).take 2)
    ++ 45 :: hexEncode ((u.val.drop 6).take 2)
    ++ 45 :: hexEncode ((u.val.drop 8).take 2)
    ++ 45 :: hexEncode (u.val.drop 10)

/-- The method `UUID.MarshalText`. -/
def MarshalText (u : UUID) : List Byte × Option Error :=
  (encodeHex u, none)

/-- The method `UUID.String`. -/
def String (u : UUID) : List Byte :=
  encodeHex u

/-- The statement `copy(uuid[:], data)` on a receiver holding `u`: the first 16 bytes of
`data`, the rest (if `data` is shorter) staying as in `u`. -/
def copyOnto (u : UUID) (data : List Byte) : UUID :=
  ⟨(data ++ u.val.drop data.length).take 16, by
    have := u.2
    simp only [List.length_take, List.length_append, List.length_drop]
    omega⟩

/-- The method `(*UUID).UnmarshalBinary` on a receiver holding `u`: an error, the
receiver untouched, unless `data` has 16 bytes, else `copy(uuid[:], data)`. -/
def UUID.UnmarshalBinary (u : UUID) (data : List Byte) : UUID × Option Error :=
  if data.length ≠ 16 then (u, some (.invalidBytes data.length))
  else (copyOnto u data, none)

end uuid

/-! ## `UUID` -/

/-- The type `UUID`, declared `type UUID uuid.UUID`. -/
abbrev UUID := uuid.UUID

/-- The variable `Nil`, declared `var Nil UUID`. -/
def Nil : UUID := ⟨List.replicate 16 0, by decide⟩

namespace UUID

/-- The method `UUID.IsZero`. -/
def IsZero (xu : UUID) : Bool :=
  decide (xu = uuid.Nil)

/-- The method `UUID.MarshalBinary`. -/
def MarshalBinary (xu : UUID) : List Byte × Option Error :=
  uuid.MarshalBinary xu

/-- The method `UUID.MarshalText`. -/
def MarshalText (xu : UUID) : List Byte × Option Error :=
  uuid.MarshalText xu

/-- The method `UUID.String`. -/
def String (xu : UUID) : List Byte :=
  uuid.String xu

/-- The method `(*UUID).UnmarshalJSON`. The call `json.Unmarshal(data[:], &s)` on the
empty string `s` is the parameter `jsonUnmarshal`, which gives the error or the
string `s` afterwards. -/
def UnmarshalJSON (jsonUnmarshal : List Byte → Except Error (List Byte)) (xu : UUID)
    (data : List Byte) : UUID × Option Error :=
  match jsonUnmarshal data with
  | .error err => (xu, some err)
  | .ok s =>
    if s = [] then (xu, none)
    else
      match uuid.Parse s with
      | .error err => (xu, some err)
      | .ok u => (u, none)

/-- The method `(*UUID).UnmarshalBinary`. -/
def UnmarshalBinary (xu : UUID) (data : List Byte) : UUID × Option Error :=
  uuid.UUID.UnmarshalBinary xu data

/-- The method `(*UUID).UnmarshalText`. -/
def UnmarshalText (xu : UUID) (data : List Byte) : UUID × Option Error :=
  match uuid.Parse data with
  | .error err => (xu, some err)
  | .ok parsedUUID => (parsedUUID, none)

/-- The method `UUID.Value`: the bytes and the error of `xu.MarshalBinary()`, the bytes
as a `driver.Value`. -/
def Value (xu : UUID) : DriverValue × Option Error :=
  (.bytes (MarshalBinary xu).1, (MarshalBinary xu).2)

end UUID

/-- The call `json.Unmarshal(data, &s)` on the empty string `s`, for the inputs that are
the literal `null` (which leaves `s` as it is) or a string literal of printable ASCII
bytes other than the quote and the backslash (which gives the bytes between the
quotes). Inputs with white space, escapes or other bytes are outside this decoder and
are reported as errors. -/
def jsonPlainString (data : List Byte) : Except Error (List Byte) :=
  if data = ascii "null" then .ok []
  else
    match data with
    | 34 :: rest =>
      if rest.getLast? = some 34 ∧
          rest.dropLast.all (fun b => 32 ≤ b.val && b.val < 127 && b != 34 && b != 92) then
        .ok rest.dropLast
      else .error .jsonSyntax
    | _ => .error .jsonSyntax

/-! ## `Wildcard` -/

/-- The type `Wildcard`, declared `type Wildcard []byte`. -/
abbrev Wildcard := List Byte

namespace Wildcard

/-- The method `(*Wildcard).UnmarshalJSON`. -/
def UnmarshalJSON (w : Wildcard) (data : List Byte) : Wildcard × Option Error :=
  match uuid.Parse data with
  | .error _ => (data, none)
  | .ok u =>
    match uuid.MarshalBinary u with
    | (_, some err) => (w, some err)
    | (b, none) => (b, none)

/-- The method `(*Wildcard).UnmarshalBinary`. -/
def UnmarshalBinary (w : Wildcard) (data : List Byte) : Wildcard × Option Error :=
  match uuid.FromBytes data with
  | .error _ => (data, none)
  | .ok u =>
    match uuid.MarshalBinary u with
    | (_, some err) => (w, some err)
    | (b, none) => (b, none)

/-- The method `Wildcard.MarshalBinary`. -/
def MarshalBinary (w : Wildcard) : List Byte × Option Error :=
  match uuid.FromBytes w with
  | .error _ => (w, none)
  | .ok u => uuid.MarshalBinary u

/-- The method `(*Wildcard).UnmarshalText`. -/
def UnmarshalText (w : Wildcard) (data : List Byte) : Wildcard × Option Error :=
  match uuid.Parse data with
  | .error _ => (data, none)
  | .ok u =>
    match uuid.MarshalBinary u with
    | (_, some err) => (w, some err)
    | (b, none) => (b, none)

/-- The method `Wildcard.MarshalText`. -/
def MarshalText (w : Wildcard) : List Byte × Option Error :=
  match uuid.FromBytes w with
  | .error _ => (w, none)
  | .ok u => uuid.MarshalText u

/-- The method `Wildcard.String`. -/
def String (w : Wildcard) : List Byte :=
  match uuid.FromBytes w with
  | .error _ => w
  | .ok u => uuid.String u

/-- The method `Wildcard.Value`. -/
def Value (w : Wildcard) : DriverValue × Option Error :=
  match uuid.FromBytes w with
  | .error _ => (.string w, none)
  | .ok u => UUID.Value u

end Wildcard

/-! ## The base-62 encoder -/

/-- The constant `base62Chars`. -/
def base62Chars : List Byte :=
  ascii "0123456789ABCDEFGHIJKLMNOPQRSTUVWXYZabcdefghijklmnopqrstuvwxyz"

/-- The loop `for num.Cmp(zero) > 0` of `base62Encode`, run for at most `fuel` rounds:
`num.DivMod(num, base, mod)` is Euclidean division by 62, and the character
`base62Chars[mod.Int64()]` goes in front of `encoded`. The result is `none` when the
index is out of range (Go panics) or when the rounds are used up with `num` still
positive. -/
def base62Loop : Nat → Int → List Byte → Option (List Byte)
  | 0, num, encoded => if num > 0 then none else some encoded
  | fuel + 1, num, encoded =>
    if num > 0 then
      match base62Chars[(num % 62).toNat]? with
      | some c => base62Loop fuel (num / 62) (c :: encoded)
      | none => none
    else some encoded

/-- The function `base62Encode`. The loop gets `num` rounds, which is more than it
uses (`base62Loop_fuel`). -/
def base62Encode (num : Int) : Option (List Byte) :=
  if num = 0 then some (ascii "0")
  else base62Loop num.toNat num []

/-- The call `strings.ReplaceAll(s, "-", "")`: every hyphen is dropped. -/
def removeHyphens (s : List Byte) : List Byte :=
  s.filter (fun b => b != 45)

/-- The value of one digit for `big.Int.SetString`: `0`-`9`, then the letters of either
case from 10 on. -/
def digitVal (b : Byte) : Option Nat :=
  if 48 ≤ b.val ∧ b.val ≤ 57 then some (b.val - 48)
  else if 97 ≤ b.val ∧ b.val ≤ 122 then some (b.val - 97 + 10)
  else if 65 ≤ b.val ∧ b.val ≤ 90 then some (b.val - 65 + 10)
  else none

/-- The digits of `big.Int.SetString(s, 16)` read from the left, `acc` being the value
so far; `none` at a byte that is not a digit below 16. -/
def scanHex : List Byte → Nat → Option Nat
  | [], acc => some acc
  | b :: bs, acc =>
    match digitVal b with
    | some d => if d < 16 then scanHex bs (acc * 16 + d) else none
    | none => none

/-- The call `num.SetString(s, 16)`: an optional sign, then one or more hexadecimal
digits up to the end of `s`; `none` when the call reports failure. -/
def setString16 (s : List Byte) : Option Int :=
  match s with
  | 43 :: rest => if rest = [] then none else (scanHex rest 0).map Int.ofNat
  | 45 :: rest => if rest = [] then none else (scanHex rest 0).map (fun n => -Int.ofNat n)
  | _ => if s = [] then none else (scanHex s 0).map Int.ofNat

/-- The method `UUID.ToBase62`. The result of `SetString` is not checked by the source;
where it reports failure the value of `num` is not defined and the result is `none`. -/
def UUID.ToBase62 (xu : UUID) : Option (List Byte) :=
  let noDashUuidStr := removeHyphens (UUID.String xu)
  match setString16 noDashUuidStr with
  | some num => base62Encode num
  | none => none

/-! ## Reading functions used to state the properties -/

/-- The value of a base-62 digit character: its index in `base62Chars`. -/
def base62Digit (c : Byte) : Nat := base62Chars.indexOf c

/-- The character of a digit value, `base62Chars[d]`, for `d` below 62. -/
def base62Char (d : Nat) : Byte := base62Chars.getD d 0

/-- The number a digit string denotes, most significant digit first: the sum of
`digit_i * 62 ^ (len - 1 - i)`. -/
def base62Read : List Byte → Nat
  | [] => 0
  | c :: cs => base62Digit c * 62 ^ cs.length + base62Read cs

/-- The unsigned integer formed by bytes in big-endian order. -/
def bigEndian (l : List Byte) : Nat :=
  l.foldl (fun acc b => acc * 256 + b.val) 0

/-- The number of base-62 digits of `n`, one digit for zero. -/
def base62Len (n : Nat) : Nat :=
  if n = 0 then 1 else (Nat.digits 62 n).length

/-! ## Lemmas on the identifier primitives -/

theorem copyInto_val (l : List Byte) (h : l.length = 16) : (uuid.copyInto l).val = l := by
  simp only [uuid.copyInto]
  rw [List.take_append_of_le_length (by omega)]
  exact List.take_of_length_le (by omega)

theorem copyInto_eq (l : List Byte) (h : l.length = 16) : uuid.copyInto l = ⟨l, h⟩ :=
  Subtype.ext (copyInto_val l h)

theorem xtobEach_length (s : List Byte) :
    ∀ (offsets : List Nat) (vs : List Byte),
      uuid.xtobEach s offsets = .ok vs → vs.length = offsets.length := by
  intro offsets
  induction offsets with
  | nil =>
    intro vs h
    simp only [uuid.xtobEach, Except.ok.injEq] at h
    rw [← h]
    rfl
  | cons x xs ih =>
    intro vs h
    unfold uuid.xtobEach at h
    split at h
    · split at h
      · rename_i ws hws
        simp only [Except.ok.injEq] at h
        rw [← h, List.length_cons, List.length_cons, ih ws hws]
      · exact absurd h (by simp)
    · exact absurd h (by simp)

theorem FromBytes_ok (l : List Byte) (h : l.length = 16) : uuid.FromBytes l = .ok ⟨l, h⟩ := by
  simp [uuid.FromBytes, uuid.UnmarshalBinary, h, copyInto_eq l h]

theorem FromBytes_error (l : List Byte) (h : l.length ≠ 16) :
    uuid.FromBytes l = .error (.invalidBytes l.length) := by
  simp [uuid.FromBytes, uuid.UnmarshalBinary, h]

theorem Parse_invalidLength (s : List Byte)
    (h : s.length ≠ 36 ∧ s.length ≠ 45 ∧ s.length ≠ 38 ∧ s.length ≠ 32) :
    uuid.Parse s = .error (.invalidLength s.length) := by
  obtain ⟨h1, h2, h3, h4⟩ := h
  simp [uuid.Parse, h1, h2, h3, h4]

theorem hexEncode_length (l : List Byte) : (uuid.hexEncode l).length = 2 * l.length := by
  induction l with
  | nil => rfl
  | cons v vs ih => simp only [uuid.hexEncode, List.length_cons, ih]; omega

theorem encodeHex_length (u : uuid.UUID) : (uuid.encodeHex u).length = 36 := by
  obtain ⟨l, h⟩ := u
  simp only [uuid.encodeHex, List.length_append, List.length_cons, hexEncode_length,
    List.length_take, List.length_drop, h]
  rfl

/-! ## The polymorphic identifier -/

/-- C1: whatever the bytes `raw` and the receiver's prior value `w`, none of
`Wildcard.UnmarshalBinary`, `Wildcard.UnmarshalText` and `Wildcard.UnmarshalJSON`
returns an error. -/
theorem Wildcard_decode_total (w : Wildcard) (raw : List Byte) :
    (Wildcard.UnmarshalBinary w raw).2 = none ∧
    (Wildcard.UnmarshalText w raw).2 = none ∧
    (Wildcard.UnmarshalJSON w raw).2 = none := by
  refine ⟨?_, ?_, ?_⟩
  · unfold Wildcard.UnmarshalBinary
    cases uuid.FromBytes raw <;> simp [uuid.MarshalBinary]
  · unfold Wildcard.UnmarshalText
    cases uuid.Parse raw <;> simp [uuid.MarshalBinary]
  · unfold Wildcard.UnmarshalJSON
    cases uuid.Parse raw <;> simp [uuid.MarshalBinary]

/-- C2: `Wildcard.UnmarshalText` stores the 16-byte binary form of `u` when `raw` parses
as identifier text to `u`, and stores `raw` itself when the parse fails. -/
theorem Wildcard_UnmarshalText_stored (w : Wildcard) (raw : List Byte) :
    match uuid.Parse raw with
    | .ok u =>
      (Wildcard.UnmarshalText w raw).1 = (uuid.MarshalBinary u).1 ∧
      (Wildcard.UnmarshalText w raw).1.length = 16
    | .error _ => (Wildcard.UnmarshalText w raw).1 = raw := by
  unfold Wildcard.UnmarshalText
  cases h : uuid.Parse raw with
  | error e => simp
  | ok u => simp [uuid.MarshalBinary, u.2]

/-- C3: for bytes `raw` of any length, `Wildcard.UnmarshalBinary` followed by
`Wildcard.MarshalBinary` gives back exactly `raw`, without error. -/
theorem Wildcard_binary_roundtrip (w : Wildcard) (raw : List Byte) :
    (Wildcard.UnmarshalBinary w raw).2 = none ∧
    Wildcard.MarshalBinary (Wildcard.UnmarshalBinary w raw).1 = (raw, none) := by
  by_cases h : raw.length = 16
  · simp [Wildcard.UnmarshalBinary, Wildcard.MarshalBinary, FromBytes_ok raw h,
      uuid.MarshalBinary]
  · simp [Wildcard.UnmarshalBinary, Wildcard.MarshalBinary, FromBytes_error raw h]

/-- C4, as stated, fails: the 36 bytes `550E8400-E29B-41D4-A716-446655440000` (upper-case
digits) parse as an identifier, so `Wildcard.UnmarshalText` stores 16 bytes and
`Wildcard.MarshalText` renders them in lower case. -/
theorem Wildcard_text_roundtrip_counterexample :
    (ascii "550E8400-E29B-41D4-A716-446655440000").length ≠ 16 ∧
    Wildcard.MarshalText
        (Wildcard.UnmarshalText [] (ascii "550E8400-E29B-41D4-A716-446655440000")).1 =
      (ascii "550e8400-e29b-41d4-a716-446655440000", none) ∧
    ascii "550e8400-e29b-41d4-a716-446655440000" ≠
      ascii "550E8400-E29B-41D4-A716-446655440000" := by
  decide

/-- C4, amended: for bytes `raw` whose length is not 16, `Wildcard.UnmarshalText` followed
by `Wildcard.MarshalText` gives back `raw` when `raw` does not parse as identifier text,
and the canonical text of `u` when `raw` parses to the identifier `u`. -/
theorem Wildcard_text_roundtrip (w : Wildcard) (raw : List Byte) (h : raw.length ≠ 16) :
    match uuid.Parse raw with
    | .ok u =>
      Wildcard.MarshalText (Wildcard.UnmarshalText w raw).1 = (uuid.String u, none)
    | .error _ =>
      Wildcard.MarshalText (Wildcard.UnmarshalText w raw).1 = (raw, none) := by
  unfold Wildcard.UnmarshalText
  cases hp : uuid.Parse raw with
  | error e => simp [Wildcard.MarshalText, FromBytes_error raw h]
  | ok u =>
    simp [Wildcard.MarshalText, uuid.MarshalBinary, FromBytes_ok u.1 u.2, uuid.MarshalText,
      uuid.String]

theorem Wildcard_text_roundtrip_witness :
    (ascii "hello").length ≠ 16 ∧
    Wildcard.MarshalText (Wildcard.UnmarshalText [] (ascii "hello")).1 =
      (ascii "hello", none) :=
  ⟨by decide, Wildcard_text_roundtrip [] (ascii "hello") (by decide)⟩

/-- C5: bytes `raw` of length 16 never parse as identifier text, so
`Wildcard.UnmarshalText` stores them as they are; `Wildcard.MarshalText` and
`Wildcard.String` then render the 36-byte canonical text of the identifier with those
bytes, which is not `raw`. -/
theorem Wildcard_reclassified (w : Wildcard) (raw : List Byte) (h : raw.length = 16) :
    uuid.Parse raw = .error (.invalidLength 16) ∧
    Wildcard.UnmarshalText w raw = (raw, none) ∧
    Wildcard.MarshalText (Wildcard.UnmarshalText w raw).1 = (uuid.String ⟨raw, h⟩, none) ∧
    Wildcard.String (Wildcard.UnmarshalText w raw).1 = uuid.String ⟨raw, h⟩ ∧
    (uuid.String ⟨raw, h⟩).length = 36 ∧
    uuid.String ⟨raw, h⟩ ≠ raw := by
  have hp : uuid.Parse raw = .error (.invalidLength 16) := by
    have := Parse_invalidLength raw (by omega)
    rwa [h] at this
  have hs : Wildcard.UnmarshalText w raw = (raw, none) := by
    simp [Wildcard.UnmarshalText, hp]
  refine ⟨hp, hs, ?_, ?_, encodeHex_length _, ?_⟩
  · simp [hs, Wildcard.MarshalText, FromBytes_ok raw h, uuid.MarshalText, uuid.String]
  · simp [hs, Wildcard.String, FromBytes_ok raw h]
  · intro he
    have := encodeHex_length ⟨raw, h⟩
    rw [uuid.String] at he
    rw [he, h] at this
    omega

theorem Wildcard_reclassified_witness :
    (ascii "0123456789abcdef").length = 16 ∧
    Wildcard.UnmarshalText [] (ascii "0123456789abcdef") = (ascii "0123456789abcdef", none) ∧
    Wildcard.MarshalText (Wildcard.UnmarshalText [] (ascii "0123456789abcdef")).1 =
      (ascii "30313233-3435-3637-3839-616263646566", none) ∧
    Wildcard.String (Wildcard.UnmarshalText [] (ascii "0123456789abcdef")).1 =
      ascii "30313233-3435-3637-3839-616263646566" :=
  have h := Wildcard_reclassified [] (ascii "0123456789abcdef") (by decide)
  ⟨by decide, h.2.1, h.2.2.1, h.2.2.2.1⟩

/-- C6: `Wildcard.MarshalText` never fails and returns the bytes of `Wildcard.String`:
the canonical text of the identifier when `w` has exactly 16 bytes, and `w` itself when
it has any other length. -/
theorem Wildcard_MarshalText_String (w : Wildcard) :
    (Wildcard.MarshalText w).2 = none ∧
    (Wildcard.MarshalText w).1 = Wildcard.String w ∧
    (if h : w.length = 16 then
      (Wildcard.MarshalText w).1 = uuid.String ⟨w, h⟩ ∧ (Wildcard.MarshalText w).1.length = 36
     else (Wildcard.MarshalText w).1 = w) := by
  by_cases h : w.length = 16
  · simp [Wildcard.MarshalText, Wildcard.String, FromBytes_ok w h, uuid.MarshalText,
      uuid.String, h, encodeHex_length]
  · simp [Wildcard.MarshalText, Wildcard.String, FromBytes_error w h, h]

/-- C7: `Wildcard.UnmarshalJSON` stores the same bytes and returns the same nil result as
`Wildcard.UnmarshalText`; nothing is unquoted, so the 7 bytes of the quoted literal
`hello` are stored with their quotes. -/
theorem Wildcard_UnmarshalJSON_eq_UnmarshalText (w : Wildcard) (raw : List Byte) :
    Wildcard.UnmarshalJSON w raw = Wildcard.UnmarshalText w raw ∧
    (Wildcard.UnmarshalJSON w raw).2 = none ∧
    Wildcard.UnmarshalJSON w (ascii "\x22hello\x22") = (ascii "\x22hello\x22", none) ∧
    (ascii "\x22hello\x22").length = 7 := by
  refine ⟨rfl, ?_, ?_, by decide⟩
  · unfold Wildcard.UnmarshalJSON
    cases uuid.Parse raw <;> simp [uuid.MarshalBinary]
  · have hp : uuid.Parse (ascii "\x22hello\x22") = .error (.invalidLength 7) := by decide
    unfold Wildcard.UnmarshalJSON
    rw [hp]

/-! ## Lemmas on the base-62 encoder -/

theorem base62Chars_length : base62Chars.length = 62 := by decide

theorem base62Chars_getElem? (d : Nat) (h : d < 62) : base62Chars[d]? = some (base62Char d) := by
  have hl : d < base62Chars.length := by rw [base62Chars_length]; exact h
  simp [base62Char, List.getD, List.getElem?_eq_getElem hl]

theorem base62Digit_base62Char (d : Nat) (h : d < 62) : base62Digit (base62Char d) = d := by
  have key : ∀ i : Fin 62, base62Digit (base62Char i.val) = i.val := by decide
  exact key ⟨d, h⟩

theorem base62Char_mem (d : Nat) (h : d < 62) : base62Char d ∈ base62Chars := by
  have key : ∀ i : Fin 62, base62Char i.val ∈ base62Chars := by decide
  exact key ⟨d, h⟩

theorem base62Char_ne_zero (d : Nat) (h : d < 62) (h0 : d ≠ 0) : base62Char d ≠ 48 := by
  have key : ∀ i : Fin 62, i.val ≠ 0 → base62Char i.val ≠ 48 := by decide
  exact key ⟨d, h⟩ h0

/-- The loop of `base62Encode` on a non-negative number `m`, with at least `m` rounds:
the characters of the base-62 digits of `m`, most significant first, in front of
`encoded`. -/
theorem base62Loop_eq (fuel : Nat) :
    ∀ (m : Nat) (encoded : List Byte), m ≤ fuel →
      base62Loop fuel (m : Int) encoded =
        some (((Nat.digits 62 m).reverse.map base62Char) ++ encoded) := by
  induction fuel with
  | zero =>
    intro m encoded hm
    have : m = 0 := by omega
    subst this
    simp [base62Loop]
  | succ f ih =>
    intro m encoded hm
    by_cases h0 : m = 0
    · subst h0
      simp [base62Loop]
    · have hpos : (m : Int) > 0 := by omega
      have hmod : ((m : Int) % 62).toNat = m % 62 := by omega
      have hdiv : (m : Int) / 62 = ((m / 62 : Nat) : Int) := by omega
      have hlt : m % 62 < 62 := Nat.mod_lt _ (by decide)
      rw [base62Loop, if_pos hpos, hmod, base62Chars_getElem? _ hlt, hdiv]
      simp only []
      rw [ih (m / 62) _ (by omega), Nat.digits_def' (by decide) (Nat.pos_of_ne_zero h0)]
      simp

/-- The rounds given to the loop by `base62Encode` are enough: more rounds give the same
result. -/
theorem base62Loop_fuel (fuel m : Nat) (encoded : List Byte) (h : m ≤ fuel) :
    base62Loop fuel (m : Int) encoded = base62Loop m (m : Int) encoded := by
  rw [base62Loop_eq fuel m encoded h, base62Loop_eq m m encoded (le_refl m)]

theorem base62Encode_natCast (m : Nat) :
    base62Encode (m : Int) =
      some (if m = 0 then ascii "0" else (Nat.digits 62 m).reverse.map base62Char) := by
  by_cases h0 : m = 0
  · subst h0
    simp [base62Encode]
  · have hne : (m : Int) ≠ 0 := by omega
    rw [base62Encode, if_neg hne, Int.toNat_ofNat, base62Loop_eq m m [] (le_refl m)]
    simp [h0]

theorem base62Read_append_singleton (s : List Byte) (c : Byte) :
    base62Read (s ++ [c]) = base62Read s * 62 + base62Digit c := by
  induction s with
  | nil => simp [base62Read]
  | cons x xs ih =>
    have hlen : (xs ++ [c]).length = xs.length + 1 := by simp
    rw [List.cons_append, base62Read, base62Read, ih, hlen]
    ring

theorem base62Read_digits (l : List Nat) (h : ∀ d ∈ l, d < 62) :
    base62Read (l.reverse.map base62Char) = Nat.ofDigits 62 l := by
  induction l with
  | nil => simp [base62Read]
  | cons a l ih =>
    have ha : a < 62 := h a (List.mem_cons_self a l)
    have hl : ∀ d ∈ l, d < 62 := fun d hd => h d (List.mem_cons_of_mem a hd)
    rw [List.reverse_cons, List.map_append, List.map_singleton, base62Read_append_singleton,
      ih hl, base62Digit_base62Char a ha, Nat.ofDigits_cons]
    ring

/-- C8: for a non-negative integer `n`, `base62Encode` returns a string over the
alphabet `base62Chars` which, read as a base-62 numeral with the most significant digit
first and the index in `base62Chars` as digit value, denotes exactly `n`. -/
theorem base62Encode_numeral (n : Int) (h : 0 ≤ n) :
    ∃ s, base62Encode n = some s ∧ (∀ c ∈ s, c ∈ base62Chars) ∧ (base62Read s : Int) = n := by
  obtain ⟨m, rfl⟩ := Int.eq_ofNat_of_zero_le h
  rw [base62Encode_natCast]
  refine ⟨_, rfl, ?_, ?_⟩
  · intro c hc
    by_cases h0 : m = 0
    · subst h0
      have hz : ascii "0" = [48] := by decide
      rw [if_pos rfl, hz, List.mem_singleton] at hc
      subst hc
      decide
    · rw [if_neg h0, List.mem_map] at hc
      obtain ⟨d, hd, rfl⟩ := hc
      exact base62Char_mem d (Nat.digits_lt_base (by decide) (List.mem_reverse.mp hd))
  · by_cases h0 : m = 0
    · subst h0
      decide
    · rw [if_neg h0, base62Read_digits _ (fun d hd => Nat.digits_lt_base (by decide) hd),
        Nat.ofDigits_digits]

theorem base62Encode_numeral_witness :
    (0 : Int) ≤ 1000000 ∧
    ∃ s, base62Encode 1000000 = some s ∧ (∀ c ∈ s, c ∈ base62Chars) ∧
      (base62Read s : Int) = 1000000 :=
  ⟨by decide, base62Encode_numeral 1000000 (by decide)⟩

/-! ## Lemmas on the hexadecimal text of an identifier -/

theorem hexEncode_append (a b : List Byte) :
    uuid.hexEncode (a ++ b) = uuid.hexEncode a ++ uuid.hexEncode b := by
  induction a with
  | nil => rfl
  | cons v vs ih => simp [uuid.hexEncode, ih]

set_option maxRecDepth 100000 in
theorem hextable_digits (v : Byte) :
    digitVal (uuid.hextable.getD (v.val >>> 4) 0) = some (v.val / 16) ∧
    digitVal (uuid.hextable.getD (v.val &&& 15) 0) = some (v.val % 16) ∧
    uuid.hextable.getD (v.val >>> 4) 0 ≠ 45 ∧ uuid.hextable.getD (v.val &&& 15) 0 ≠ 45 ∧
    uuid.hextable.getD (v.val >>> 4) 0 ≠ 43 := by
  revert v
  decide

theorem removeHyphens_hexEncode (l : List Byte) :
    removeHyphens (uuid.hexEncode l) = uuid.hexEncode l := by
  induction l with
  | nil => rfl
  | cons v vs ih =>
    obtain ⟨-, -, h1, h2, -⟩ := hextable_digits v
    unfold removeHyphens at ih ⊢
    rw [uuid.hexEncode, List.filter_cons_of_pos (by simpa using h1),
      List.filter_cons_of_pos (by simpa using h2), ih]

theorem removeHyphens_encodeHex (u : uuid.UUID) :
    removeHyphens (uuid.encodeHex u) = uuid.hexEncode u.val := by
  obtain ⟨l, h⟩ := u
  have e : l = l.take 4 ++ ((l.drop 4).take 2 ++ ((l.drop 6).take 2 ++
      ((l.drop 8).take 2 ++ l.drop 10))) := by
    have e1 : l.drop 6 = (l.drop 4).drop 2 := by rw [List.drop_drop]
    have e2 : l.drop 8 = (l.drop 6).drop 2 := by rw [List.drop_drop]
    have e3 : l.drop 10 = (l.drop 8).drop 2 := by rw [List.drop_drop]
    rw [e3, List.take_append_drop, e2, List.take_append_drop, e1, List.take_append_drop,
      List.take_append_drop]
  have hf : ∀ l, List.filter (fun b : Byte => b != 45) (uuid.hexEncode l) = uuid.hexEncode l :=
    removeHyphens_hexEncode
  simp only [uuid.encodeHex, removeHyphens]
  conv_rhs => rw [e]
  simp [List.filter_append, List.filter_cons, hf, hexEncode_append]

theorem scanHex_hexEncode (l : List Byte) :
    ∀ acc, scanHex (uuid.hexEncode l) acc = some (l.foldl (fun a b => a * 256 + b.val) acc) := by
  induction l with
  | nil => intro acc; rfl
  | cons v vs ih =>
    intro acc
    obtain ⟨h1, h2, -, -, -⟩ := hextable_digits v
    have hv := v.isLt
    have e : (acc * 16 + v.val / 16) * 16 + v.val % 16 = acc * 256 + v.val := by omega
    simp only [uuid.hexEncode, scanHex, h1, h2, List.foldl_cons]
    rw [if_pos (by omega), if_pos (by omega), ih, e]

theorem setString16_hexEncode (l : List Byte) (h : l ≠ []) :
    setString16 (uuid.hexEncode l) = some (bigEndian l : Int) := by
  cases l with
  | nil => exact absurd rfl h
  | cons v vs =>
    obtain ⟨-, -, h45, -, h43⟩ := hextable_digits v
    have hs := scanHex_hexEncode (v :: vs) 0
    unfold setString16
    split
    · rename_i rest heq
      simp only [uuid.hexEncode, List.cons.injEq] at heq
      exact absurd heq.1 h43
    · rename_i rest heq
      simp only [uuid.hexEncode, List.cons.injEq] at heq
      exact absurd heq.1 h45
    · have hne : uuid.hexEncode (v :: vs) ≠ [] := by simp [uuid.hexEncode]
      rw [if_neg hne, hs]
      rfl

theorem bigEndian_lt (l : List Byte) : bigEndian l < 256 ^ l.length := by
  have key : ∀ (l : List Byte) (acc : Nat),
      l.foldl (fun a b => a * 256 + b.val) acc < (acc + 1) * 256 ^ l.length := by
    intro l
    induction l with
    | nil => intro acc; simp
    | cons v vs ih =>
      intro acc
      have hv := v.isLt
      have := ih (acc * 256 + v.val)
      simp only [List.foldl_cons, List.length_cons]
      calc List.foldl (fun a b => a * 256 + b.val) (acc * 256 + v.val) vs
          < (acc * 256 + v.val + 1) * 256 ^ vs.length := this
        _ ≤ ((acc + 1) * 256) * 256 ^ vs.length := Nat.mul_le_mul_right _ (by omega)
        _ = (acc + 1) * 256 ^ (vs.length + 1) := by ring
  simpa [bigEndian] using key l 0

theorem bigEndian_eq_zero (l : List Byte) (h : bigEndian l = 0) : l = List.replicate l.length 0 := by
  have key : ∀ (l : List Byte) (acc : Nat),
      l.foldl (fun a b => a * 256 + b.val) acc = 0 → acc = 0 ∧ ∀ b ∈ l, b = 0 := by
    intro l
    induction l with
    | nil => intro acc hacc; exact ⟨hacc, by simp⟩
    | cons v vs ih =>
      intro acc hacc
      obtain ⟨h1, h2⟩ := ih (acc * 256 + v.val) hacc
      refine ⟨by omega, ?_⟩
      intro b hb
      rcases List.mem_cons.mp hb with hbv | hb
      · rw [hbv]
        exact Fin.ext (by simp only [Fin.val_zero]; omega)
      · exact h2 b hb
  exact List.eq_replicate_iff.mpr ⟨rfl, (key l 0 h).2⟩

theorem ToBase62_digits (u : UUID) :
    UUID.ToBase62 u =
      some (if bigEndian u.val = 0 then ascii "0"
        else (Nat.digits 62 (bigEndian u.val)).reverse.map base62Char) := by
  have hne : u.val ≠ [] := by
    intro h0
    have := u.2
    rw [h0] at this
    simp at this
  simp only [UUID.ToBase62, UUID.String, uuid.String, removeHyphens_encodeHex,
    setString16_hexEncode u.val hne]
  exact base62Encode_natCast _

/-! ## The compact numeric string -/

/-- C9: the canonical text of `u` without its hyphens is 32 bytes which
`SetString(_, 16)` parses, without failure, to the unsigned 128-bit integer formed by
the 16 bytes of `u` in big-endian order, and `u.ToBase62()` is `base62Encode` of that
integer. -/
theorem ToBase62_eq_base62Encode (u : UUID) :
    (removeHyphens (UUID.String u)).length = 32 ∧
    setString16 (removeHyphens (UUID.String u)) = some (bigEndian u.val : Int) ∧
    bigEndian u.val < 2 ^ 128 ∧
    UUID.ToBase62 u = base62Encode (bigEndian u.val : Int) := by
  have hne : u.val ≠ [] := by
    intro h0
    have := u.2
    rw [h0] at this
    simp at this
  have hs : removeHyphens (UUID.String u) = uuid.hexEncode u.val := removeHyphens_encodeHex u
  refine ⟨?_, ?_, ?_, ?_⟩
  · rw [hs, hexEncode_length, u.2]
  · rw [hs, setString16_hexEncode u.val hne]
  · have := bigEndian_lt u.val
    rw [u.2] at this
    calc bigEndian u.val < 256 ^ 16 := this
      _ = 2 ^ 128 := by norm_num
  · simp only [UUID.ToBase62, hs, setString16_hexEncode u.val hne]

/-- C10: `ToBase62` of the nil identifier is exactly `0`, and for an identifier other
than nil the 128-bit value is not zero and the first character of `ToBase62` is not the
character `0`. -/
theorem ToBase62_canonical (u : UUID) (h : u ≠ Nil) :
    UUID.ToBase62 Nil = some (ascii "0") ∧
    bigEndian u.val ≠ 0 ∧
    ∃ c cs, UUID.ToBase62 u = some (c :: cs) ∧ c ≠ 48 := by
  have hv : bigEndian u.val ≠ 0 := by
    intro h0
    apply h
    apply Subtype.ext
    have := bigEndian_eq_zero u.val h0
    rw [u.2] at this
    exact this
  refine ⟨by decide, hv, ?_⟩
  have hd : Nat.digits 62 (bigEndian u.val) ≠ [] := Nat.digits_ne_nil_iff_ne_zero.mpr hv
  have hlast := Nat.getLast_digit_ne_zero 62 hv
  have hlt : (Nat.digits 62 (bigEndian u.val)).getLast hd < 62 :=
    Nat.digits_lt_base (by decide) (List.getLast_mem hd)
  refine ⟨base62Char ((Nat.digits 62 (bigEndian u.val)).getLast hd),
    (Nat.digits 62 (bigEndian u.val)).dropLast.reverse.map base62Char, ?_,
    base62Char_ne_zero _ hlt hlast⟩
  rw [ToBase62_digits, if_neg hv]
  congr 1
  conv_lhs => rw [← List.dropLast_append_getLast hd]
  simp

theorem ToBase62_canonical_witness :
    (⟨[0, 0, 0, 0, 0, 0, 0, 0, 0, 0, 0, 0, 0, 0, 0, 1], rfl⟩ : UUID) ≠ Nil ∧
    UUID.ToBase62 Nil = some (ascii "0") ∧
    bigEndian [0, 0, 0, 0, 0, 0, 0, 0, 0, 0, 0, 0, 0, 0, 0, 1] ≠ 0 ∧
    ∃ c cs, UUID.ToBase62 ⟨[0, 0, 0, 0, 0, 0, 0, 0, 0, 0, 0, 0, 0, 0, 0, 1], rfl⟩ = some (c :: cs) ∧
      c ≠ 48 :=
  ⟨by decide, ToBase62_canonical ⟨[0, 0, 0, 0, 0, 0, 0, 0, 0, 0, 0, 0, 0, 0, 0, 1], rfl⟩ (by decide)⟩

/-! ## Lemmas on the length of the compact numeric string -/

theorem base62Len_pos (n : Nat) : 1 ≤ base62Len n := by
  unfold base62Len
  split
  · exact le_refl 1
  · rename_i h
    exact List.length_pos.mpr (Nat.digits_ne_nil_iff_ne_zero.mpr h)

theorem base62Len_upper (n : Nat) : n < 62 ^ base62Len n := by
  unfold base62Len
  split
  · rename_i h
    rw [h]
    decide
  · exact Nat.lt_base_pow_length_digits (by decide)

theorem base62Len_lower (n : Nat) (h : n ≠ 0) : 62 ^ (base62Len n - 1) ≤ n := by
  have hpos := base62Len_pos n
  have hle : 62 ^ base62Len n ≤ 62 * n := by
    unfold base62Len
    rw [if_neg h]
    exact Nat.base_pow_length_digits_le 62 n (by decide) h
  have hsplit : 62 ^ base62Len n = 62 * 62 ^ (base62Len n - 1) := by
    conv_lhs => rw [show base62Len n = (base62Len n - 1) + 1 by omega]
    rw [pow_succ, Nat.mul_comm]
  rw [hsplit] at hle
  exact Nat.le_of_mul_le_mul_left hle (by decide)

theorem base62Len_le_iff (n k : Nat) (hk : 1 ≤ k) : base62Len n ≤ k ↔ n < 62 ^ k := by
  constructor
  · intro h
    exact lt_of_lt_of_le (base62Len_upper n) (Nat.pow_le_pow_right (by decide) h)
  · intro h
    by_cases h0 : n = 0
    · rw [h0]
      unfold base62Len
      rw [if_pos rfl]
      exact hk
    · by_contra hlt
      have h1 : 62 ^ k ≤ 62 ^ (base62Len n - 1) := Nat.pow_le_pow_right (by decide) (by omega)
      have h2 := base62Len_lower n h0
      omega

theorem base62Len_mono (n m : Nat) (h : n ≤ m) : base62Len n ≤ base62Len m :=
  (base62Len_le_iff n (base62Len m) (base62Len_pos m)).mpr
    (lt_of_le_of_lt h (base62Len_upper m))

theorem ToBase62_length_eq (u : UUID) :
    ∃ s, UUID.ToBase62 u = some s ∧ s.length = base62Len (bigEndian u.val) := by
  refine ⟨_, ToBase62_digits u, ?_⟩
  unfold base62Len
  by_cases h0 : bigEndian u.val = 0
  · rw [if_pos h0, if_pos h0]
    decide
  · rw [if_neg h0, if_neg h0, List.length_map, List.length_reverse]

theorem bigEndian_lt_pow (u : UUID) : bigEndian u.val < 2 ^ 128 := by
  have := bigEndian_lt u.val
  rw [u.2] at this
  calc bigEndian u.val < 256 ^ 16 := this
    _ = 2 ^ 128 := by norm_num

set_option maxRecDepth 100000 in
theorem base62Chars_index (c : Byte) (h : c ∈ base62Chars) :
    base62Digit c < 62 ∧ base62Chars[base62Digit c]? = some c ∧ c ≠ 45 := by
  revert c
  decide

theorem ToBase62_read (u : UUID) :
    ∃ s, UUID.ToBase62 u = some s ∧ base62Read s = bigEndian u.val := by
  refine ⟨_, ToBase62_digits u, ?_⟩
  by_cases h0 : bigEndian u.val = 0
  · rw [if_pos h0, h0]
    decide
  · rw [if_neg h0, base62Read_digits _ (fun d hd => Nat.digits_lt_base (by decide) hd),
      Nat.ofDigits_digits]

theorem digits62_getElem? (i : Nat) :
    ∀ n, i < (Nat.digits 62 n).length → (Nat.digits 62 n)[i]? = some (n / 62 ^ i % 62) := by
  induction i with
  | zero =>
    intro n h
    have hn : n ≠ 0 := by
      intro h0
      rw [h0] at h
      simp at h
    rw [Nat.digits_def' (by decide) (Nat.pos_of_ne_zero hn)]
    simp
  | succ i ih =>
    intro n h
    have hn : n ≠ 0 := by
      intro h0
      rw [h0] at h
      simp at h
    rw [Nat.digits_def' (by decide) (Nat.pos_of_ne_zero hn)] at h ⊢
    rw [List.length_cons] at h
    rw [List.getElem?_cons_succ, ih (n / 62) (by omega), Nat.div_div_eq_div_mul, pow_succ,
      Nat.mul_comm]

/-- The character at each position of the compact string: position `i` of the `L`
characters holds `base62Chars[d]` for the digit `d = n / 62 ^ (L - 1 - i) % 62` of the
value `n`. -/
theorem ToBase62_getElem? (u : UUID) :
    ∃ s, UUID.ToBase62 u = some s ∧
      ∀ i, i < s.length →
        s[i]? = base62Chars[bigEndian u.val / 62 ^ (s.length - 1 - i) % 62]? := by
  refine ⟨_, ToBase62_digits u, ?_⟩
  intro i hi
  by_cases h0 : bigEndian u.val = 0
  · rw [if_pos h0] at hi
    have hz : ascii "0" = [48] := by decide
    rw [hz, List.length_singleton] at hi
    have hi0 : i = 0 := by omega
    simp only [if_pos h0, h0, hi0]
    decide
  · simp only [if_neg h0] at hi ⊢
    rw [List.length_map, List.length_reverse] at hi ⊢
    rw [List.getElem?_map, List.getElem?_reverse hi,
      digits62_getElem? _ _ (by omega), Option.map_some',
      base62Chars_getElem? _ (Nat.mod_lt _ (by decide))]

/-- For every integer `num`, negative ones included, `base62Encode` returns a string: no
index is out of range and the rounds given to the loop are enough. -/
theorem base62Encode_total (num : Int) : ∃ r, base62Encode num = some r := by
  by_cases h : 0 ≤ num
  · obtain ⟨m, rfl⟩ := Int.eq_ofNat_of_zero_le h
    exact ⟨_, base62Encode_natCast m⟩
  · have hne : num ≠ 0 := by omega
    have ht : num.toNat = 0 := by omega
    have hng : ¬ num > 0 := by omega
    refine ⟨[], ?_⟩
    rw [base62Encode, if_neg hne, ht, base62Loop, if_neg hng]

/-- C11: `u.ToBase62()` is a non-empty string. Position `i` of its `L` characters holds
the character `base62Chars[d]` for the base-62 digit `d = n / 62 ^ (L - 1 - i) % 62` of the
128-bit value `n` of `u`, so the string reads back to `n`; each character belongs to the
62 characters of `base62Chars`, is not the hyphen, and has a digit value below 62; and
for every integer `num` the lookup `base62Chars[mod]` of `base62Encode` is in range and
`base62Encode` returns a string. -/
theorem ToBase62_alphabet (u : UUID) :
    ∃ s, UUID.ToBase62 u = some s ∧ s ≠ [] ∧
      (∀ i, i < s.length →
        s[i]? = base62Chars[bigEndian u.val / 62 ^ (s.length - 1 - i) % 62]?) ∧
      base62Read s = bigEndian u.val ∧
      (∀ c ∈ s, c ∈ base62Chars ∧ c ≠ 45 ∧
        base62Digit c < 62 ∧ base62Chars[base62Digit c]? = some c) ∧
      base62Chars =
        ascii "0123456789ABCDEFGHIJKLMNOPQRSTUVWXYZabcdefghijklmnopqrstuvwxyz" ∧
      base62Chars.length = 62 ∧
      (∀ num : Int, 0 ≤ num % 62 ∧ (num % 62).toNat < base62Chars.length ∧
        (∃ c, base62Chars[(num % 62).toNat]? = some c) ∧
        ∃ r, base62Encode num = some r) := by
  obtain ⟨s, hs, hpos⟩ := ToBase62_getElem? u
  have hlen : s.length = base62Len (bigEndian u.val) := by
    obtain ⟨s1, hs1, hl1⟩ := ToBase62_length_eq u
    rw [hs, Option.some.injEq] at hs1
    rw [hs1]
    exact hl1
  have hread : base62Read s = bigEndian u.val := by
    obtain ⟨s2, hs2, hr2⟩ := ToBase62_read u
    rw [hs, Option.some.injEq] at hs2
    rw [hs2]
    exact hr2
  have hmem : ∀ c ∈ s, c ∈ base62Chars := by
    intro c hc
    obtain ⟨i, hi, hci⟩ := List.getElem_of_mem hc
    have h1 : s[i]? = some c := by rw [List.getElem?_eq_getElem hi, hci]
    rw [hpos i hi] at h1
    obtain ⟨hj, hcj⟩ := List.getElem?_eq_some.mp h1
    rw [← hcj]
    exact List.getElem_mem _
  refine ⟨s, hs, ?_, hpos, hread, ?_, rfl, base62Chars_length, ?_⟩
  · intro hnil
    have := base62Len_pos (bigEndian u.val)
    rw [hnil] at hlen
    simp only [List.length_nil] at hlen
    omega
  · intro c hc
    obtain ⟨h1, h2, h3⟩ := base62Chars_index c (hmem c hc)
    exact ⟨hmem c hc, h3, h1, h2⟩
  · intro num
    have hlt : (num % 62).toNat < 62 := by omega
    refine ⟨by omega, by rw [base62Chars_length]; exact hlt,
      ⟨_, base62Chars_getElem? _ hlt⟩, base62Encode_total num⟩

/-- C12: the length `L` of `u.ToBase62()` is the least number of base-62 digits of the
128-bit value `n` of `u`: `L = 1` for `n = 0`, else `62 ^ (L - 1) ≤ n < 62 ^ L`; `L` is at
most 22; and of two identifiers the one with the smaller value never has the longer
string. -/
theorem ToBase62_length (a b : UUID) :
    ∃ s t, UUID.ToBase62 a = some s ∧ UUID.ToBase62 b = some t ∧
      (if bigEndian a.val = 0 then s.length = 1
       else 62 ^ (s.length - 1) ≤ bigEndian a.val ∧ bigEndian a.val < 62 ^ s.length) ∧
      s.length ≤ 22 ∧
      (if bigEndian a.val ≤ bigEndian b.val then s.length ≤ t.length
       else t.length ≤ s.length) := by
  obtain ⟨s, hs, hsl⟩ := ToBase62_length_eq a
  obtain ⟨t, ht, htl⟩ := ToBase62_length_eq b
  refine ⟨s, t, hs, ht, ?_, ?_, ?_⟩
  · rw [hsl]
    split
    · rename_i h0
      unfold base62Len
      rw [if_pos h0]
    · rename_i h0
      exact ⟨base62Len_lower _ h0, base62Len_upper _⟩
  · rw [hsl]
    apply (base62Len_le_iff _ 22 (by decide)).mpr
    calc bigEndian a.val < 2 ^ 128 := bigEndian_lt_pow a
      _ ≤ 62 ^ 22 := by norm_num
  · rw [hsl, htl]
    split
    · rename_i h
      exact base62Len_mono _ _ h
    · rename_i h
      exact base62Len_mono _ _ (by omega)

/-! ## Lemmas on parsing the canonical text -/

set_option maxRecDepth 100000 in
theorem xtob_hextable (v : Byte) :
    uuid.xtob (uuid.hextable.getD (v.val >>> 4) 0) (uuid.hextable.getD (v.val &&& 15) 0) =
      (v, true) := by
  revert v
  decide

theorem length16 {α : Type} (l : List α) (h : l.length = 16) :
    ∃ b0 b1 b2 b3 b4 b5 b6 b7 b8 b9 b10 b11 b12 b13 b14 b15,
      l = [b0, b1, b2, b3, b4, b5, b6, b7, b8, b9, b10, b11, b12, b13, b14, b15] := by
  rcases l with _ | ⟨b0, _ | ⟨b1, _ | ⟨b2, _ | ⟨b3, _ | ⟨b4, _ | ⟨b5, _ | ⟨b6, _ | ⟨b7,
    _ | ⟨b8, _ | ⟨b9, _ | ⟨b10, _ | ⟨b11, _ | ⟨b12, _ | ⟨b13, _ | ⟨b14, _ | ⟨b15, _ | ⟨b16, l⟩⟩⟩⟩⟩⟩⟩⟩⟩⟩⟩⟩⟩⟩⟩⟩⟩ <;>
    simp at h
  exact ⟨b0, b1, b2, b3, b4, b5, b6, b7, b8, b9, b10, b11, b12, b13, b14, b15, rfl⟩

theorem parseHyphenated_encodeHex (u : uuid.UUID) (tl : List Byte) :
    uuid.parseHyphenated (uuid.encodeHex u ++ tl) = .ok u := by
  obtain ⟨l, h⟩ := u
  obtain ⟨b0, b1, b2, b3, b4, b5, b6, b7, b8, b9, b10, b11, b12, b13, b14, b15, rfl⟩ :=
    length16 l h
  simp only [uuid.parseHyphenated, uuid.encodeHex, uuid.hexEncode, uuid.hyphenatedOffsets,
    uuid.xtobEach, List.take, List.drop, List.cons_append, List.nil_append, List.getD_cons_succ,
    List.getD_cons_zero, xtob_hextable]
  rw [if_neg (by decide), copyInto_eq _ h]

theorem Parse_encodeHex (u : uuid.UUID) : uuid.Parse (uuid.encodeHex u) = .ok u := by
  have h := parseHyphenated_encodeHex u []
  rw [List.append_nil] at h
  rw [uuid.Parse, if_pos (encodeHex_length u), h]

theorem Parse_quoted (u : uuid.UUID) (q r : Byte) :
    uuid.Parse (q :: uuid.encodeHex u ++ [r]) = .ok u := by
  have hl : (q :: uuid.encodeHex u ++ [r]).length = 38 := by
    simp [encodeHex_length]
  rw [uuid.Parse, if_neg (by omega), if_neg (by omega), if_pos (by omega)]
  exact parseHyphenated_encodeHex u [r]

theorem copyOnto_eq (u : uuid.UUID) (l : List Byte) (h : l.length = 16) :
    uuid.copyOnto u l = ⟨l, h⟩ := by
  apply Subtype.ext
  simp only [uuid.copyOnto]
  rw [List.take_append_of_le_length (by omega)]
  exact List.take_of_length_le (by omega)


/-! ## The identifier value and the polymorphic identifier, continued -/

/-- C14, as stated, fails: a receiver which holds an identifier other than nil still
holds it after `UUID.UnmarshalJSON` of the empty string literal, which returns no
error. -/
theorem UUID_UnmarshalJSON_empty_counterexample :
    jsonPlainString (ascii "\x22\x22") = .ok [] ∧
    UUID.UnmarshalJSON jsonPlainString
        ⟨[1, 0, 0, 0, 0, 0, 0, 0, 0, 0, 0, 0, 0, 0, 0, 0], rfl⟩ (ascii "\x22\x22") =
      (⟨[1, 0, 0, 0, 0, 0, 0, 0, 0, 0, 0, 0, 0, 0, 0, 0], rfl⟩, none) ∧
    (⟨[1, 0, 0, 0, 0, 0, 0, 0, 0, 0, 0, 0, 0, 0, 0, 0], rfl⟩ : UUID) ≠ Nil := by
  decide

/-- C14, amended: with a JSON decoder that reads the two bytes of the empty string
literal as the empty string, `UUID.UnmarshalJSON` of that literal returns no error and
leaves the receiver as it was; the receiver afterwards is the nil identifier exactly
when it was the nil identifier before, as a zero-valued receiver is. -/
theorem UUID_UnmarshalJSON_empty (jsonUnmarshal : List Byte → Except Error (List Byte))
    (xu : UUID) (h : jsonUnmarshal (ascii "\x22\x22") = .ok []) :
    UUID.UnmarshalJSON jsonUnmarshal xu (ascii "\x22\x22") = (xu, none) ∧
    UUID.UnmarshalJSON jsonUnmarshal Nil (ascii "\x22\x22") = (Nil, none) ∧
    ((UUID.UnmarshalJSON jsonUnmarshal xu (ascii "\x22\x22")).1 = Nil ↔ xu = Nil) := by
  have key : ∀ x : UUID, UUID.UnmarshalJSON jsonUnmarshal x (ascii "\x22\x22") = (x, none) := by
    intro x
    unfold UUID.UnmarshalJSON
    rw [h]
    simp
  refine ⟨key xu, key Nil, ?_⟩
  rw [key xu]

theorem UUID_UnmarshalJSON_empty_witness :
    jsonPlainString (ascii "\x22\x22") = .ok [] ∧
    UUID.UnmarshalJSON jsonPlainString Nil (ascii "\x22\x22") = (Nil, none) :=
  ⟨by decide, (UUID_UnmarshalJSON_empty jsonPlainString Nil (by decide)).1⟩

/-- C15: `UUID.UnmarshalBinary` returns an error exactly when `data` does not have 16
bytes; without error the receiver holds the bytes of `data`, and with an error it holds
what it held before. -/
theorem UUID_UnmarshalBinary_spec (xu : UUID) (data : List Byte) :
    ((UUID.UnmarshalBinary xu data).2 ≠ none ↔ data.length ≠ 16) ∧
    (if (UUID.UnmarshalBinary xu data).2 = none then (UUID.UnmarshalBinary xu data).1.val = data
     else (UUID.UnmarshalBinary xu data).1 = xu) := by
  by_cases h : data.length = 16
  · simp [UUID.UnmarshalBinary, uuid.UUID.UnmarshalBinary, h, copyOnto_eq xu data h]
  · simp [UUID.UnmarshalBinary, uuid.UUID.UnmarshalBinary, h]

/-- C16: for every identifier `u`, `MarshalBinary` gives 16 bytes without error and
`UnmarshalBinary` of them, on any receiver, gives `u`; `MarshalText` gives the canonical
text without error and `UnmarshalText` of it, on any receiver, gives `u`. -/
theorem UUID_roundtrip (xu u : UUID) :
    (UUID.MarshalBinary u).2 = none ∧ (UUID.MarshalBinary u).1.length = 16 ∧
    UUID.UnmarshalBinary xu (UUID.MarshalBinary u).1 = (u, none) ∧
    UUID.MarshalText u = (UUID.String u, none) ∧ (UUID.MarshalText u).1.length = 36 ∧
    UUID.UnmarshalText xu (UUID.MarshalText u).1 = (u, none) := by
  refine ⟨rfl, u.2, ?_, rfl, encodeHex_length u, ?_⟩
  · simp [UUID.UnmarshalBinary, uuid.UUID.UnmarshalBinary, UUID.MarshalBinary,
      uuid.MarshalBinary, u.2, copyOnto_eq xu u.val u.2]
  · simp [UUID.UnmarshalText, UUID.MarshalText, uuid.MarshalText, Parse_encodeHex]

/-- C17: `Wildcard.UnmarshalJSON` of the canonical text of `u` between double quotes, 38
bytes, stores the 16 bytes of `u`, and `Wildcard.String` then gives the canonical text
without the quotes. -/
theorem Wildcard_UnmarshalJSON_quoted (w : Wildcard) (u : UUID) :
    (34 :: UUID.String u ++ [34]).length = 38 ∧
    Wildcard.UnmarshalJSON w (34 :: UUID.String u ++ [34]) = ((UUID.MarshalBinary u).1, none) ∧
    Wildcard.String (Wildcard.UnmarshalJSON w (34 :: UUID.String u ++ [34])).1 =
      UUID.String u := by
  have hp : uuid.Parse (34 :: UUID.String u ++ [34]) = .ok u := Parse_quoted u 34 34
  have hs : Wildcard.UnmarshalJSON w (34 :: UUID.String u ++ [34]) = (u.val, none) := by
    unfold Wildcard.UnmarshalJSON
    rw [hp]
    rfl
  refine ⟨?_, hs, ?_⟩
  · simp [UUID.String, uuid.String, encodeHex_length]
  · rw [hs]
    simp [Wildcard.String, FromBytes_ok u.val u.2, UUID.String]

/-- C18: `Wildcard.Value` never fails; for `w` of exactly 16 bytes it returns those bytes
as a `[]byte` driver value, the same as `UUID.Value` of the identifier with those bytes,
and for `w` of any other length it returns the bytes of `w` as a `string` driver
value. -/
theorem Wildcard_Value_spec (w : Wildcard) :
    (Wildcard.Value w).2 = none ∧
    (if h : w.length = 16 then
      Wildcard.Value w = (.bytes w, none) ∧ Wildcard.Value w = UUID.Value ⟨w, h⟩
     else Wildcard.Value w = (.string w, none)) := by
  by_cases h : w.length = 16
  · simp [Wildcard.Value, FromBytes_ok w h, UUID.Value, UUID.MarshalBinary,
      uuid.MarshalBinary, h]
  · simp [Wildcard.Value, FromBytes_error w h, h]

/-- C20: if `w` is what `Wildcard.UnmarshalText` stores for `raw`, then
`Wildcard.UnmarshalText` of `Wildcard.MarshalText` of `w` stores exactly `w` again,
without error. -/
theorem Wildcard_text_reencode_stable (w0 w1 : Wildcard) (raw : List Byte) :
    Wildcard.UnmarshalText w1 (Wildcard.MarshalText (Wildcard.UnmarshalText w0 raw).1).1 =
      ((Wildcard.UnmarshalText w0 raw).1, none) := by
  have key : ∀ w : Wildcard, (w.length = 16 ∨ ∃ e, uuid.Parse w = .error e) →
      Wildcard.UnmarshalText w1 (Wildcard.MarshalText w).1 = (w, none) := by
    intro w hw
    by_cases h16 : w.length = 16
    · simp [Wildcard.MarshalText, FromBytes_ok w h16, uuid.MarshalText, Wildcard.UnmarshalText,
        Parse_encodeHex, uuid.MarshalBinary]
    · rcases hw with hw | ⟨e, hw⟩
      · exact absurd hw h16
      · simp [Wildcard.MarshalText, FromBytes_error w h16, Wildcard.UnmarshalText, hw]
  apply key
  unfold Wildcard.UnmarshalText
  cases hp : uuid.Parse raw with
  | ok u => exact Or.inl u.2
  | error e => exact Or.inr ⟨e, hp⟩

/-! ## The compact numeric string: leading digits and injectivity -/

theorem scanHex_acc (l : List Byte) :
    ∀ acc, scanHex l acc = (scanHex l 0).map (fun v => acc * 16 ^ l.length + v) := by
  induction l with
  | nil => intro acc; simp [scanHex]
  | cons b bs ih =>
    intro acc
    unfold scanHex
    cases digitVal b with
    | none => rfl
    | some d =>
      simp only []
      by_cases hlt : d < 16
      · rw [if_pos hlt, if_pos hlt, ih (acc * 16 + d), ih (0 * 16 + d), Option.map_map]
        congr 1
        funext v
        simp only [Function.comp_apply, List.length_cons, pow_succ]
        ring
      · rw [if_neg hlt, if_neg hlt]
        rfl

theorem scanHex_lt (l : List Byte) : ∀ v, scanHex l 0 = some v → v < 16 ^ l.length := by
  induction l with
  | nil =>
    intro v h
    simp only [scanHex, Option.some.injEq] at h
    simp [← h]
  | cons b bs ih =>
    intro v h
    unfold scanHex at h
    cases hd : digitVal b with
    | none => rw [hd] at h; exact absurd h (by simp)
    | some d =>
      rw [hd] at h
      simp only [] at h
      by_cases hlt : d < 16
      · rw [if_pos hlt, scanHex_acc bs (0 * 16 + d)] at h
        cases hv : scanHex bs 0 with
        | none => rw [hv] at h; exact absurd h (by simp)
        | some v0 =>
          rw [hv] at h
          simp only [Option.map_some', Option.some.injEq] at h
          have h0 := ih v0 hv
          have : d * 16 ^ bs.length ≤ 15 * 16 ^ bs.length := Nat.mul_le_mul_right _ (by omega)
          have hv' : v = d * 16 ^ bs.length + v0 := by rw [← h]; ring
          rw [List.length_cons, pow_succ]
          omega
      · rw [if_neg hlt] at h
        exact absurd h (by simp)

set_option maxRecDepth 100000 in
theorem digitVal_leading (c : Byte) :
    digitVal 48 = some 0 ∧
    (∀ d, digitVal c = some d → c ≠ 48 → d ≠ 0) ∧
    (∀ d, digitVal c = some d → d < 16 → 51 ≤ c.val → 3 ≤ d) := by
  revert c
  decide

/-- The values of two identifiers whose 32 hexadecimal digits agree but for the first,
which is `0` for `b` and not for `a`: that of `a` is that of `b`, which is below
`16 ^ 31`, plus the first digit, which is not zero, times `16 ^ 31`. -/
theorem leading_digit_values (a b : UUID) (ca : Byte) (tl : List Byte)
    (ha : removeHyphens (UUID.String a) = ca :: tl)
    (hb : removeHyphens (UUID.String b) = 48 :: tl) (hca : ca ≠ 48) :
    ∃ d, digitVal ca = some d ∧ 1 ≤ d ∧ d < 16 ∧ bigEndian b.val < 16 ^ 31 ∧
      bigEndian a.val = d * 16 ^ 31 + bigEndian b.val ∧ (51 ≤ ca.val → 3 ≤ d) := by
  have hsa : scanHex (ca :: tl) 0 = some (bigEndian a.val) := by
    rw [← ha]
    exact (removeHyphens_encodeHex a).symm ▸ scanHex_hexEncode a.val 0
  have hsb : scanHex (48 :: tl) 0 = some (bigEndian b.val) := by
    rw [← hb]
    exact (removeHyphens_encodeHex b).symm ▸ scanHex_hexEncode b.val 0
  have hlen : tl.length = 31 := by
    have h1 : (removeHyphens (UUID.String a)).length = 32 := by
      rw [show removeHyphens (UUID.String a) = uuid.hexEncode a.val from removeHyphens_encodeHex a,
        hexEncode_length, a.2]
    rw [ha, List.length_cons] at h1
    omega
  obtain ⟨hz, -, -⟩ := digitVal_leading ca
  unfold scanHex at hsa hsb
  rw [hz] at hsb
  simp only [] at hsb
  rw [if_pos (by decide)] at hsb
  cases hd : digitVal ca with
  | none => rw [hd] at hsa; exact absurd hsa (by simp)
  | some d =>
    rw [hd] at hsa
    simp only [] at hsa
    by_cases hlt : d < 16
    · rw [if_pos hlt, scanHex_acc tl (0 * 16 + d)] at hsa
      have hsb0 : scanHex tl 0 = some (bigEndian b.val) := hsb
      rw [hsb0] at hsa
      simp only [Option.map_some', Option.some.injEq, hlen] at hsa
      have hb31 := scanHex_lt tl _ hsb0
      rw [hlen] at hb31
      have hd0 := (digitVal_leading ca).2.1 d hd hca
      exact ⟨d, rfl, by omega, hlt, hb31, by omega, (digitVal_leading ca).2.2 d hd hlt⟩
    · rw [if_neg hlt] at hsa
      exact absurd hsa (by simp)

/-- C13, as stated, fails: the identifiers `1fffffff-ffff-ffff-ffff-ffffffffffff` and
`0fffffff-ffff-ffff-ffff-ffffffffffff` differ only in the leading hexadecimal digit, and
both compact strings have 21 characters. -/
theorem ToBase62_leading_digit_counterexample :
    removeHyphens (UUID.String ⟨[31, 255, 255, 255, 255, 255, 255, 255, 255, 255, 255, 255,
      255, 255, 255, 255], rfl⟩) = 49 :: List.replicate 31 102 ∧
    removeHyphens (UUID.String ⟨[15, 255, 255, 255, 255, 255, 255, 255, 255, 255, 255, 255,
      255, 255, 255, 255], rfl⟩) = 48 :: List.replicate 31 102 ∧
    (UUID.ToBase62 ⟨[31, 255, 255, 255, 255, 255, 255, 255, 255, 255, 255, 255,
      255, 255, 255, 255], rfl⟩).map List.length = some 21 ∧
    (UUID.ToBase62 ⟨[15, 255, 255, 255, 255, 255, 255, 255, 255, 255, 255, 255,
      255, 255, 255, 255], rfl⟩).map List.length = some 21 := by
  decide

/-- C13, amended: when the 32 hexadecimal digits of `a` and `b` agree but for the first,
which is `0` for `b` and not for `a`, the compact string of `b` has at most 21 characters
and that of `a` at least 21, so that of `b` is never the longer; it is strictly shorter
exactly when `62 ^ len(b) ≤ value(a)`, and the compact string of `a` has 22 characters
when its first digit is 3 or more. -/
theorem ToBase62_leading_digit (a b : UUID) (ca : Byte) (tl : List Byte)
    (ha : removeHyphens (UUID.String a) = ca :: tl)
    (hb : removeHyphens (UUID.String b) = 48 :: tl) (hca : ca ≠ 48) :
    ∃ s t, UUID.ToBase62 a = some s ∧ UUID.ToBase62 b = some t ∧
      t.length ≤ 21 ∧ 21 ≤ s.length ∧
      (t.length < s.length ↔ 62 ^ t.length ≤ bigEndian a.val) ∧
      (if 51 ≤ ca.val then s.length = 22 else s.length ≤ 22) := by
  obtain ⟨d, -, hd1, hd16, hB, hA, hd3⟩ := leading_digit_values a b ca tl ha hb hca
  obtain ⟨s, hs, hsl⟩ := ToBase62_length_eq a
  obtain ⟨t, ht, htl⟩ := ToBase62_length_eq b
  have h22 : s.length ≤ 22 := by
    rw [hsl]
    apply (base62Len_le_iff _ 22 (by decide)).mpr
    calc bigEndian a.val < 2 ^ 128 := bigEndian_lt_pow a
      _ ≤ 62 ^ 22 := by norm_num
  have hge : ∀ k, 1 ≤ k → 62 ^ k ≤ bigEndian a.val → k + 1 ≤ s.length := by
    intro k hk hle
    by_contra hlt
    have := (base62Len_le_iff (bigEndian a.val) k hk).mp (by omega)
    omega
  have hA1 : 16 ^ 31 ≤ bigEndian a.val := by
    have : 1 * 16 ^ 31 ≤ d * 16 ^ 31 := Nat.mul_le_mul_right _ hd1
    omega
  refine ⟨s, t, hs, ht, ?_, ?_, ?_, ?_⟩
  · rw [htl]
    apply (base62Len_le_iff _ 21 (by decide)).mpr
    calc bigEndian b.val < 16 ^ 31 := hB
      _ ≤ 62 ^ 21 := by norm_num
  · exact hge 20 (by decide) (le_trans (by norm_num) hA1)
  · have hiff := base62Len_le_iff (bigEndian a.val) t.length (by rw [htl]; exact base62Len_pos _)
    rw [← hsl] at hiff
    constructor
    · intro hlt
      by_contra hc
      have := hiff.mpr (by omega)
      omega
    · intro hle
      by_contra hc
      have := hiff.mp (by omega)
      omega
  · split
    · rename_i h51
      have h3 : 3 * 16 ^ 31 ≤ d * 16 ^ 31 := Nat.mul_le_mul_right _ (hd3 h51)
      have := hge 21 (by decide) (le_trans (by norm_num) (le_trans h3 (by omega)))
      omega
    · exact h22

theorem ToBase62_leading_digit_witness :
    removeHyphens (UUID.String ⟨[48, 0, 0, 0, 0, 0, 0, 0, 0, 0, 0, 0, 0, 0, 0, 0], rfl⟩) =
      51 :: List.replicate 31 48 ∧
    removeHyphens (UUID.String Nil) = 48 :: List.replicate 31 48 ∧
    (51 : Byte) ≠ 48 ∧
    ∃ s t, UUID.ToBase62 ⟨[48, 0, 0, 0, 0, 0, 0, 0, 0, 0, 0, 0, 0, 0, 0, 0], rfl⟩ = some s ∧
      UUID.ToBase62 Nil = some t ∧ t.length ≤ 21 ∧ 21 ≤ s.length ∧
      (t.length < s.length ↔
        62 ^ t.length ≤ bigEndian [48, 0, 0, 0, 0, 0, 0, 0, 0, 0, 0, 0, 0, 0, 0, 0]) ∧
      (if 51 ≤ (51 : Byte).val then s.length = 22 else s.length ≤ 22) :=
  ⟨by decide, by decide, by decide,
    ToBase62_leading_digit ⟨[48, 0, 0, 0, 0, 0, 0, 0, 0, 0, 0, 0, 0, 0, 0, 0], rfl⟩ Nil 51
      (List.replicate 31 48) (by decide) (by decide) (by decide)⟩

theorem bigEndian_injective (l1 : List Byte) :
    ∀ l2 : List Byte, l1.length = l2.length → bigEndian l1 = bigEndian l2 → l1 = l2 := by
  have key : ∀ (l1 l2 : List Byte) (acc1 acc2 : Nat), l1.length = l2.length →
      l1.foldl (fun a b => a * 256 + b.val) acc1 = l2.foldl (fun a b => a * 256 + b.val) acc2 →
      acc1 = acc2 ∧ l1 = l2 := by
    intro l1
    induction l1 with
    | nil =>
      intro l2 acc1 acc2 hlen h
      have h2 : l2 = [] := List.length_eq_zero.mp hlen.symm
      subst h2
      exact ⟨h, rfl⟩
    | cons v vs ih =>
      intro l2 acc1 acc2 hlen h
      cases l2 with
      | nil => simp at hlen
      | cons x xs =>
        have hl : vs.length = xs.length := by simpa using hlen
        obtain ⟨h1, h2⟩ := ih xs (acc1 * 256 + v.val) (acc2 * 256 + x.val) hl h
        have hv := v.isLt
        have hx := x.isLt
        have hvx : v = x := Fin.ext (by omega)
        exact ⟨by omega, by rw [hvx, h2]⟩
  intro l2 hlen h
  exact (key l1 l2 0 0 hlen h).2

/-- C19: `ToBase62` is injective: two identifiers with the same compact string are the
same identifier, and the compact string is always produced. -/
theorem ToBase62_injective (a b : UUID) (h : UUID.ToBase62 a = UUID.ToBase62 b) :
    a = b ∧ (UUID.ToBase62 a).isSome = true := by
  obtain ⟨s, hs, hsr⟩ := ToBase62_read a
  obtain ⟨t, ht, htr⟩ := ToBase62_read b
  have hst : s = t := by
    rw [hs, ht] at h
    exact Option.some.inj h
  refine ⟨?_, by rw [hs]; rfl⟩
  apply Subtype.ext
  apply bigEndian_injective a.val b.val (by rw [a.2, b.2])
  rw [← hsr, ← htr, hst]

theorem ToBase62_injective_witness :
    UUID.ToBase62 Nil = UUID.ToBase62 (uuid.copyInto []) ∧
    (Nil = uuid.copyInto [] ∧ (UUID.ToBase62 Nil).isSome = true) :=
  ⟨by decide, ToBase62_injective Nil (uuid.copyInto []) (by decide)⟩

end Xuuid
